import Mathlib

/-!
Verification of the release-publishing pipeline in `create_updater.py`
(repository `resonance-logs/resonance-logs`).

The Python source is shallowly embedded: every pure helper becomes a Lean
function over `String` / `List Char`, filesystem and network effects become
explicit parameters (directory listings, probe answers, upload statuses), and
the orchestrator `main` becomes a function from such a world to its observable
outcome (exit code, keys uploaded, whether the manifest / placeholder file was
written).  Python strings are modelled over ASCII: `str.lower` becomes
`Char.toLower` and the regex class `\d` becomes `Char.isDigit`, which agree
with CPython on ASCII input (all inputs appearing in this development are
ASCII).
-/

namespace CreateUpdater

/-- Test that `pat` occurs as a contiguous run inside `l`. -/
def listContainsRun [BEq α] (pat : List α) : List α → Bool
  | [] => pat.isEmpty
  | a :: rest => pat.isPrefixOf (a :: rest) || listContainsRun pat rest

/-- Test that `tok` occurs as a contiguous substring of `s` (Python `tok in s` /
`re.search` on a literal alternative). -/
def strContains (s tok : String) : Bool :=
  listContainsRun tok.toList s.toList

/-- Python `str.lower()` restricted to ASCII. -/
def lowerStr (s : String) : String :=
  String.mk (s.toList.map Char.toLower)

/-- Embeds `platform_identifier_for_filename` (create_updater.py, lines
101-111): the filename is lowercased once, the extension is compared verbatim
against the lowercase literals `.msi`/`.exe`/`.dmg`, and the architecture
tokens are searched in the lowercased filename. -/
def platform_identifier_for_filename (name ext : String) : String :=
  let n := lowerStr name
  if ext = ".msi" ∨ ext = ".exe" then
    if strContains n "x64" ∨ strContains n "x86_64" ∨ strContains n "amd64" ∨
        strContains n "x86-64" then
      "windows-x86_64"
    else
      "windows"
  else if ext = ".dmg" then
    if strContains n "arm" ∨ strContains n "aarch64" ∨ strContains n "arm64" then
      "darwin-aarch64"
    else
      "darwin-x86_64"
  else
    "unknown"

/-- Case-insensitive containment, spelled the way the spec words it:
the token is searched in the filename ignoring case on both sides. -/
def strContainsCI (s tok : String) : Bool :=
  strContains (lowerStr s) (lowerStr tok)

/-- Specification-side definition: `inferPlatform` transcribed from the spec's words (section 4.3): `.msi`/`.exe`
map to `"windows-x86_64"` when the filename contains one of the architecture
tokens case-insensitively and to `"windows"` otherwise; `.dmg` maps to
`"darwin-aarch64"` when the filename contains an arm token (matched
case-insensitively, as stated generally for architecture tokens) and to
`"darwin-x86_64"` otherwise; every other extension maps to `"unknown"`. -/
def inferPlatformSpec (name ext : String) : String :=
  if ext = ".msi" ∨ ext = ".exe" then
    if strContainsCI name "x64" ∨ strContainsCI name "x86_64" ∨
        strContainsCI name "amd64" ∨ strContainsCI name "x86-64" then
      "windows-x86_64"
    else
      "windows"
  else if ext = ".dmg" then
    if strContainsCI name "arm" ∨ strContainsCI name "aarch64" ∨
        strContainsCI name "arm64" then
      "darwin-aarch64"
    else
      "darwin-x86_64"
  else
    "unknown"

/-- The five-way platform enumeration of the spec's data model. -/
def platformKeys : List String :=
  ["windows-x86_64", "windows", "darwin-aarch64", "darwin-x86_64", "unknown"]

/-! ### `pathlib` name arithmetic

`create_updater.py` manipulates filenames through `pathlib.Path`: `.name`,
`.stem`, `.suffix`, `.with_name` and `.with_suffix`.  Files are modelled by
their bare filename (a `String`); the helpers below transcribe CPython's
`pathlib` rules for those accessors. -/

/-- CPython `PurePath.suffix`: the substring of the name from its last dot,
provided that dot is neither the first nor the last character; otherwise the
empty string.  (`i := name.rfind('.')`, returned iff `0 < i < len(name) - 1`;
`after` below is the run after the last dot, so `i = len - 1 - len(after)`.) -/
def pathSuffixL (l : List Char) : List Char :=
  let after := l.reverse.takeWhile (fun c => c != '.')
  if after.length + 1 < l.length ∧ 0 < after.length then '.' :: after.reverse
  else []

/-- Wrapper for `PurePath.suffix` on a filename. -/
def pathSuffixS (s : String) : String :=
  String.mk (pathSuffixL s.toList)

/-- CPython `PurePath.stem`: the name with its suffix removed. -/
def stemS (s : String) : String :=
  String.mk (s.toList.take (s.toList.length - (pathSuffixL s.toList).length))

/-- CPython `PurePath.with_suffix(t)` restricted to its name: drop the old
suffix (a no-op when there is none) and append `t`.  Both branches of the
CPython implementation (`name + suffix` when the old suffix is empty,
`name[:-len(old)] + suffix` otherwise) are instances of this expression. -/
def withSuffixS (s t : String) : String :=
  String.mk (s.toList.take (s.toList.length - (pathSuffixL s.toList).length) ++ t.toList)

/-- The glob pattern `f"{stem}*.sig"` (with a literal stem) matches a filename
iff the filename starts with the stem and the remainder ends in `.sig`
(`fnmatch` lets `*` match any, possibly empty, run of characters). -/
def sigGlobMatches (st f : String) : Bool :=
  st.toList.isPrefixOf f.toList &&
    ".sig".toList.isSuffixOf (f.toList.drop st.toList.length)

/-- Embeds `find_sig_file` (create_updater.py, lines 81-93) over the listing of
the installer's directory (in scandir order, which is what `Path.glob`
iterates): first `installer.with_name(installer.name + ".sig")`, then
`installer.with_suffix(installer.suffix + ".sig")`, then the first entry
matching the glob `f"{installer.stem}*.sig"`; `None` when all fail. -/
def find_sig_file (dir : List String) (name : String) : Option String :=
  let sig1 := name ++ ".sig"
  if dir.contains sig1 then some sig1
  else
    let sig2 := withSuffixS name (pathSuffixS name ++ ".sig")
    if dir.contains sig2 then some sig2
    else (dir.filter (fun f => sigGlobMatches (stemS name) f)).head?

/-- Specification-side definition: `findSignature` transcribed from the spec's words (sections 3 and 4.2): try
`<installer-name>.sig`, then `<installer-stem>.sig` (suffix replaced), then any
file matching `<installer-stem>*.sig` in the same directory, returning the
first candidate found. -/
def findSignatureSpec (dir : List String) (name : String) : Option String :=
  let c1 := name ++ ".sig"
  if dir.contains c1 then some c1
  else
    let c2 := stemS name ++ ".sig"
    if dir.contains c2 then some c2
    else (dir.filter (fun f => sigGlobMatches (stemS name) f)).head?

/-! ### Version inference

`parse_version_from_filename` (create_updater.py, lines 96-98) runs
`re.search(r"(\d+\.\d+(?:\.\d+)*)", name)` and returns the match, or the whole
name when there is none.  `re.search` scans start positions left to right; at a
position the pattern matches greedily, and since nothing follows the group no
backtracking occurs, so each `\d+` takes the maximal digit run and `(?:\.\d+)*`
takes as many dot-digit groups as possible.  The functions below implement
exactly that scan. -/

/-- Fuel-driven core of `matchGroups`; the fuel only bounds the recursion
depth and is irrelevant once it is at least the input length
(`matchGroupsF_irrel`). -/
def matchGroupsF : Nat → List Char → List Char × List Char
  | 0, l => ([], l)
  | fuel + 1, l =>
    match l with
    | c :: c2 :: rest =>
      if c = '.' ∧ c2.isDigit then
        let d := (c2 :: rest).takeWhile Char.isDigit
        let g := matchGroupsF fuel ((c2 :: rest).dropWhile Char.isDigit)
        (c :: (d ++ g.1), g.2)
      else ([], l)
    | _ => ([], l)

/-- Greedily consume `(?:\.\d+)*`: as long as the input starts with a dot
followed by a digit, consume the dot and the maximal digit run.  Returns the
consumed part and the rest. -/
def matchGroups (l : List Char) : List Char × List Char :=
  matchGroupsF l.length l

/-- Fuel-driven core of `isGroupsB`; the fuel is irrelevant once it is at
least the input length (`isGroupsF_irrel`). -/
def isGroupsF : Nat → List Char → Bool
  | 0, l => l.isEmpty
  | fuel + 1, l =>
    match l with
    | [] => true
    | c :: r =>
      c == '.' && !(r.takeWhile Char.isDigit).isEmpty &&
        isGroupsF fuel (r.dropWhile Char.isDigit)

/-- The input is exactly a (possibly empty) sequence of `\.\d+` groups, each
digit run maximal (equivalently: the input is in the language `(\.\d+)*`). -/
def isGroupsB (l : List Char) : Bool :=
  isGroupsF l.length l

/-- The input is exactly a word of the version pattern `\d+\.\d+(?:\.\d+)*`:
a nonempty digit run followed by a nonempty sequence of dot-digit groups. -/
def isVerB (l : List Char) : Bool :=
  !(l.takeWhile Char.isDigit).isEmpty && !(l.dropWhile Char.isDigit).isEmpty &&
    isGroupsB (l.dropWhile Char.isDigit)

/-- Attempt the pattern `\d+\.\d+(?:\.\d+)*` anchored at the head of the input
(the greedy, non-backtracking match `re` performs at one start position). -/
def matchAt (l : List Char) : Option (List Char) :=
  if (l.takeWhile Char.isDigit).isEmpty then none
  else
    match l.dropWhile Char.isDigit with
    | c :: r2 =>
      if c = '.' then
        if (r2.takeWhile Char.isDigit).isEmpty then none
        else some (l.takeWhile Char.isDigit ++
          c :: (r2.takeWhile Char.isDigit ++ (matchGroups (r2.dropWhile Char.isDigit)).1))
      else none
    | [] => none

/-- Model of `re.search`: try the anchored match at each start position, left to
right. -/
def searchVersion : List Char → Option (List Char)
  | [] => none
  | c :: rest =>
    match matchAt (c :: rest) with
    | some m => some m
    | none => searchVersion rest

/-- Embeds `parse_version_from_filename` (create_updater.py, lines 96-98). -/
def parse_version_from_filename (name : String) : String :=
  match searchVersion name.toList with
  | some m => String.mk m
  | none => name

/-- Predicate: `m` is a word of the version pattern occurring in `s` at position `i`. -/
def occursVer (s : List Char) (i : Nat) (m : List Char) : Prop :=
  isVerB m = true ∧ ∃ t, m ++ t = s.drop i

/-! ### Installer location

`find_latest_installer` (create_updater.py, lines 66-78) recursively globs the
bundle directory for each extension in a fixed list and takes the candidate
with the maximal `st_mtime`.  The directory tree is modelled as a flat list of
(filename, mtime) pairs in traversal order — `none` when the bundle directory
does not exist — and `rglob(f"*{ext}")` as a suffix test on the filename. -/

def installerExts : List String :=
  [".msi", ".exe", ".dmg", ".AppImage", ".zip", ".tar.gz"]

/-- The glob `*{ext}` on a filename: the name ends with `ext` (`fnmatch` lets
`*` match any, possibly empty, run of characters). -/
def strEndsWith (s pat : String) : Bool :=
  pat.toList.isSuffixOf s.toList

/-- The `candidates` list: for each extension in order, every file matching
`*{ext}`. -/
def installerCandidates (files : List (String × Nat)) : List (String × Nat) :=
  (installerExts.map (fun e => files.filter (fun f => strEndsWith f.1 e))).flatten

/-- One step of Python `max` with a key: keep the current best unless the next
element's key is strictly greater. -/
def pickStep (best y : String × Nat) : String × Nat :=
  if best.2 < y.2 then y else best

/-- Python `max(candidates, key=mtime)`: the first element whose key is
maximal (later elements replace the current best only on a strict increase). -/
def pickLatest : List (String × Nat) → Option (String × Nat)
  | [] => none
  | x :: xs => some (xs.foldl pickStep x)

/-- Embeds `find_latest_installer` (create_updater.py, lines 66-78). -/
def find_latest_installer (bundle : Option (List (String × Nat))) :
    Option (String × Nat) :=
  match bundle with
  | none => none
  | some files => pickLatest (installerCandidates files)

/-! ### Configuration resolution

`load_dotenv` (lines 34-47) parses `KEY=VALUE` lines (blank lines, `#` comments
and lines without `=` skipped; values stripped of whitespace and then of
surrounding double and single quotes); `write_env_placeholder` (lines 50-58)
writes a fixed template.  `main` resolves each setting as the Python expression
`os.environ.get(K) or env.get(K)` (so empty strings are falsy and fall
through), with the bucket defaulting to `"binaries"`. -/

/-- An ASCII whitespace character as stripped by Python `str.strip()`
(space, tab, newline, carriage return, vertical tab, form feed). -/
def isPySpace (c : Char) : Bool :=
  c == ' ' || c == '\t' || c == '\n' || c == '\r' || c == Char.ofNat 11 || c == Char.ofNat 12

/-- Python `str.strip()` on ASCII input. -/
def pyStrip (l : List Char) : List Char :=
  ((l.dropWhile isPySpace).reverse.dropWhile isPySpace).reverse

/-- Strip every leading and trailing occurrence of `c` (Python
`str.strip(c)`). -/
def stripRuns (c : Char) (l : List Char) : List Char :=
  ((l.dropWhile (fun a => a == c)).reverse.dropWhile (fun a => a == c)).reverse

/-- Python `line.split("=", 1)`: split at the first `=`; `none` when there is
no `=` in the line. -/
def splitFirstEq : List Char → Option (List Char × List Char)
  | [] => none
  | c :: rest =>
    if c = '=' then some ([], rest)
    else (splitFirstEq rest).map (fun p => (c :: p.1, p.2))

/-- Model of `v.strip('"').strip("'")`: double quotes stripped first, then single
quotes (character codes 34 and 39). -/
def stripQuotes (l : List Char) : List Char :=
  stripRuns (Char.ofNat 39) (stripRuns (Char.ofNat 34) l)

/-- One iteration of the `load_dotenv` loop body on a raw line: strip the
line, skip blanks and `#` comments, skip lines without `=` (exactly the lines
on which `splitFirstEq` fails), then strip the key and strip-and-unquote the
value. -/
def parseDotenvLine (raw : String) : Option (String × String) :=
  let line := pyStrip raw.toList
  if line.isEmpty then none
  else if "#".toList.isPrefixOf line then none
  else
    match splitFirstEq line with
    | some (k, v) => some (String.mk (pyStrip k), String.mk (stripQuotes (pyStrip v)))
    | none => none

/-- Embeds `load_dotenv` (create_updater.py, lines 34-47) on the file's lines;
the resulting association list records assignments in order (Python dict
update: the last assignment to a key wins, see `dictGet`). -/
def load_dotenv (lines : List String) : List (String × String) :=
  lines.foldl
    (fun acc raw =>
      match parseDotenvLine raw with
      | some kv => acc ++ [kv]
      | none => acc)
    []

/-- Model of `dict.get`: the most recent assignment to the key, if any. -/
def dictGet (pairs : List (String × String)) (k : String) : Option String :=
  (pairs.reverse.find? (fun p => p.1 == k)).map (fun p => p.2)

/-- The lines of the template written by `write_env_placeholder`
(create_updater.py, lines 50-58). -/
def placeholderLines : List String :=
  ["# Supabase configuration - replace the placeholders with real values",
   "SUPABASE_URL=https://your-supabase.example.com",
   "SUPABASE_KEY=your-service-role-key",
   "SUPABASE_BUCKET=binaries"]

/-- The first truthy value in a chain of Python `or`s over optional strings
(`None` and `""` are falsy). -/
def pyFirst : List (Option String) → Option String
  | [] => none
  | o :: rest =>
    match o with
    | some s => if s = "" then pyFirst rest else some s
    | none => pyFirst rest

/-! ### Storage client: existence check

`supabase_object_exists` (create_updater.py, lines 128-187) probes two `info`
URL variants with GET; a 200 answers `true`, a 404 answers `false`, any other
status moves to the next URL, and a connection failure is remembered in
`last_exc` and moves to the next URL.  After the loop it re-raises `last_exc`
if any probe raised; otherwise it falls back to the `object/list` POST, whose
200 response is scanned for an exact name match (any other status, a JSON
parse failure, or an exception yields `false`).  The network is modelled by
the answers the two probes and the fallback would give. -/

/-- Outcome of one GET probe: an HTTP status, or a raised connection error. -/
inductive ProbeAns where
  | resp (status : Nat)
  | raised
deriving DecidableEq

/-- Outcome of the `object/list` POST: an HTTP status together with the parsed
item names (`none` when the body is not valid JSON), or a raised error. -/
inductive ListAns where
  | resp (status : Nat) (names : Option (List String))
  | raised
deriving DecidableEq

/-- Observable result of the existence check: a returned boolean or a raised
exception (the spec's `TransportError`). -/
inductive ExistsOut where
  | ret (b : Bool)
  | raised
deriving DecidableEq

/-- The list fallback (create_updater.py, lines 167-187): on a 200, scan the
items for an exact name match (`false` on a JSON failure); every other status
and any exception end in the final `return False`. -/
def listFallback (fb : ListAns) (path : String) : Bool :=
  match fb with
  | ListAns.raised => false
  | ListAns.resp s names =>
    if s = 200 then
      match names with
      | some ns => ns.contains path
      | none => false
    else false

/-- The `for url in urls_to_try` loop (lines 145-163), threading `last_exc`:
`Sum.inl` is an early definitive return, `Sum.inr` reports whether any probe
raised. -/
def probeLoop : Bool → List ProbeAns → Sum Bool Bool
  | lastExc, [] => Sum.inr lastExc
  | _, ProbeAns.raised :: rest => probeLoop true rest
  | lastExc, ProbeAns.resp s :: rest =>
    if s = 200 then Sum.inl true
    else if s = 404 then Sum.inl false
    else probeLoop lastExc rest

/-- Embeds `supabase_object_exists` (create_updater.py, lines 128-187), given
the answers `p1`, `p2` of the two probed URL variants and `fb` of the list
fallback. -/
def supabase_object_exists (p1 p2 : ProbeAns) (fb : ListAns) (path : String) :
    ExistsOut :=
  match probeLoop false [p1, p2] with
  | Sum.inl b => ExistsOut.ret b
  | Sum.inr true => ExistsOut.raised
  | Sum.inr false => ExistsOut.ret (listFallback fb path)

/-- A probe answered with a status that is neither 200 nor 404. -/
def ambiguousProbe : ProbeAns → Prop
  | ProbeAns.resp s => s ≠ 200 ∧ s ≠ 404
  | ProbeAns.raised => False

/-- A probe did not produce a definitive 200/404 answer (it raised or was
ambiguous). -/
def nondefinitiveProbe : ProbeAns → Prop
  | ProbeAns.resp s => s ≠ 200 ∧ s ≠ 404
  | ProbeAns.raised => True

/-! ### The orchestrator `main`

`main` (create_updater.py, lines 227-308) is embedded as a function from a
`RunWorld` — the command-line arguments, the process environment, the optional
`.env` file, the build result, the bundle tree, the signature directory
listing, and what the storage API answers for each object key — to the run's
observable `RunOutcome`.  Exit codes in the source: 2 config error, 1 missing
`requests` dependency (`ensure_requests_installed`, lines 119-125), 3 build
failure, 4 no installer, 5 no signature, 6 existence-check exception, 7 upload
rejected, 0 success. -/

/-- What one run of `main` gives the existence check for a key: a definitive
boolean, or a raised exception. -/
inductive ExistsAns where
  | val (b : Bool)
  | raised
deriving DecidableEq

/-- What the environment answers during one run of `main`. -/
structure RunWorld where
  no_build : Bool
  bucketArg : Option String
  notes : String
  envUrl : Option String
  envKey : Option String
  envBucket : Option String
  dotenvLines : Option (List String)
  requestsInstalled : Bool
  buildOk : Bool
  bundle : Option (List (String × Nat))
  sigDir : List String
  existsAns : String → ExistsAns
  uploadStatus : String → Nat

/-- Observable outcome of one run of `main`: the process exit code, whether
the placeholder `.env` was written, the resolved bucket name, the object keys
for which an upload request was issued (in order), and whether
`write_updater_json` ran (with the version and platform it would publish). -/
structure RunOutcome where
  exitCode : Nat
  placeholderWritten : Bool
  bucket : String
  uploadedKeys : List String
  manifestWritten : Bool
  version : Option String
  platform : Option String

/-- The parsed `.env` file (empty when the file does not exist). -/
def dotenvMap (w : RunWorld) : List (String × String) :=
  match w.dotenvLines with
  | some ls => load_dotenv ls
  | none => []

/-- Resolution `os.environ.get("SUPABASE_URL") or env.get("SUPABASE_URL")`. -/
def resolvedUrl (w : RunWorld) : Option String :=
  pyFirst [w.envUrl, dictGet (dotenvMap w) "SUPABASE_URL"]

/-- Resolution `os.environ.get("SUPABASE_KEY") or env.get("SUPABASE_KEY")`. -/
def resolvedKey (w : RunWorld) : Option String :=
  pyFirst [w.envKey, dictGet (dotenvMap w) "SUPABASE_KEY"]

/-- Resolution `args.bucket or os.environ.get("SUPABASE_BUCKET") or
env.get("SUPABASE_BUCKET") or "binaries"`. -/
def resolvedBucket (w : RunWorld) : String :=
  (pyFirst [w.bucketArg, w.envBucket, dictGet (dotenvMap w) "SUPABASE_BUCKET"]).getD "binaries"

/-- The `for f in (installer, sig)` upload loop (lines 277-294): per key, an
existence-check exception returns 6; an existing object is skipped; otherwise
an upload request is issued and any status other than 200/201 returns 7.
Result: the keys for which an upload request was issued, and the early-return
exit code if any. -/
def uploadPhase (ex : String → ExistsAns) (up : String → Nat) :
    List String → List String × Option Nat
  | [] => ([], none)
  | k :: rest =>
    match ex k with
    | ExistsAns.raised => ([], some 6)
    | ExistsAns.val true => uploadPhase ex up rest
    | ExistsAns.val false =>
      if up k = 200 ∨ up k = 201 then
        let r := uploadPhase ex up rest
        (k :: r.1, r.2)
      else ([k], some 7)

/-- Embeds `main` (create_updater.py, lines 227-308). -/
def mainModel (w : RunWorld) : RunOutcome :=
  if resolvedUrl w = none ∨ resolvedKey w = none then
    { exitCode := 2, placeholderWritten := w.dotenvLines.isNone,
      bucket := resolvedBucket w, uploadedKeys := [], manifestWritten := false,
      version := none, platform := none }
  else if !w.requestsInstalled then
    { exitCode := 1, placeholderWritten := false, bucket := resolvedBucket w,
      uploadedKeys := [], manifestWritten := false, version := none, platform := none }
  else if !w.no_build && !w.buildOk then
    { exitCode := 3, placeholderWritten := false, bucket := resolvedBucket w,
      uploadedKeys := [], manifestWritten := false, version := none, platform := none }
  else
    match find_latest_installer w.bundle with
    | none =>
      { exitCode := 4, placeholderWritten := false, bucket := resolvedBucket w,
        uploadedKeys := [], manifestWritten := false, version := none, platform := none }
    | some inst =>
      match find_sig_file w.sigDir inst.1 with
      | none =>
        { exitCode := 5, placeholderWritten := false, bucket := resolvedBucket w,
          uploadedKeys := [], manifestWritten := false, version := none, platform := none }
      | some sg =>
        let ups := uploadPhase w.existsAns w.uploadStatus [inst.1, sg]
        match ups.2 with
        | some e =>
          { exitCode := e, placeholderWritten := false, bucket := resolvedBucket w,
            uploadedKeys := ups.1, manifestWritten := false, version := none,
            platform := none }
        | none =>
          { exitCode := 0, placeholderWritten := false, bucket := resolvedBucket w,
            uploadedKeys := ups.1, manifestWritten := true,
            version := some (parse_version_from_filename inst.1),
            platform := some (platform_identifier_for_filename inst.1 (pathSuffixS inst.1)) }

/-- One pass of the upload loop body (lines 277-294) for a single object key
against an ideal store: the existence check answers definitively by
membership, and a successful upload (Supabase answers 200/201) stores the
object.  Returns the new store and the number of upload requests issued. -/
def upload_step (store : List String) (k : String) : List String × Nat :=
  if store.contains k then (store, 0) else (k :: store, 1)

/-! ### Concrete runs used as witnesses -/

/-- A fully healthy world: configuration from the process environment, build
skipped, one installer with its paired signature, both objects already present
in the bucket. -/
def wBase : RunWorld where
  no_build := true
  bucketArg := none
  notes := ""
  envUrl := some "https://sb.example.com"
  envKey := some "service-role-key"
  envBucket := none
  dotenvLines := none
  requestsInstalled := true
  buildOk := true
  bundle := some [("App_1.2.0_x64.msi", 5)]
  sigDir := ["App_1.2.0_x64.msi.sig"]
  existsAns := fun _ => ExistsAns.val true
  uploadStatus := fun _ => 200

/-- A world where both objects are absent and uploads are accepted. -/
def wFresh : RunWorld :=
  { wBase with existsAns := fun _ => ExistsAns.val false }

/-- Missing configuration (no environment variables, no `.env` file). -/
def wCfg : RunWorld :=
  { wBase with envUrl := none, envKey := none }

/-- The `requests` dependency is missing. -/
def wNoReq : RunWorld :=
  { wBase with requestsInstalled := false }

/-- The build step runs and fails. -/
def wBld : RunWorld :=
  { wBase with no_build := false, buildOk := false }

/-- The bundle directory exists but holds no installer. -/
def wNoInst : RunWorld :=
  { wBase with bundle := some [] }

/-- An installer without any signature file. -/
def wNoSig : RunWorld :=
  { wBase with sigDir := [] }

/-- The storage API is unreachable for the existence check. -/
def wTransport : RunWorld :=
  { wBase with existsAns := fun _ => ExistsAns.raised }

/-- The object is absent and the upload is rejected. -/
def wRejected : RunWorld :=
  { wBase with existsAns := fun _ => ExistsAns.val false, uploadStatus := fun _ => 400 }

example : platform_identifier_for_filename "App-x64-Setup.exe" ".exe" = "windows-x86_64" := by decide
example : platform_identifier_for_filename "App-Setup.exe" ".exe" = "windows" := by decide
example : platform_identifier_for_filename "App-arm64.dmg" ".dmg" = "darwin-aarch64" := by decide
example : platform_identifier_for_filename "App.dmg" ".dmg" = "darwin-x86_64" := by decide
example : platform_identifier_for_filename "App.zip" ".zip" = "unknown" := by decide
example : platform_identifier_for_filename "App-x64.MSI" ".MSI" = "unknown" := by decide

/-- Claim C5: `platform_identifier_for_filename` is deterministic and total into
the five-way platform enumeration, and agrees pointwise with the spec's fixed
rules (`inferPlatformSpec`): `.msi`/`.exe` yield `"windows-x86_64"` exactly when
the filename contains an x64/x86_64/amd64/x86-64 token case-insensitively and
`"windows"` otherwise; `.dmg` yields `"darwin-aarch64"` exactly when it contains
an arm/aarch64/arm64 token and `"darwin-x86_64"` otherwise; every other
extension yields `"unknown"`. -/
theorem claim_C5 (name ext : String) :
    platform_identifier_for_filename name ext = inferPlatformSpec name ext ∧
      platform_identifier_for_filename name ext ∈ platformKeys := by
  have hx64 : lowerStr "x64" = "x64" := by decide
  have hx86 : lowerStr "x86_64" = "x86_64" := by decide
  have hamd : lowerStr "amd64" = "amd64" := by decide
  have hdash : lowerStr "x86-64" = "x86-64" := by decide
  have harm : lowerStr "arm" = "arm" := by decide
  have haarch : lowerStr "aarch64" = "aarch64" := by decide
  have harm64 : lowerStr "arm64" = "arm64" := by decide
  constructor
  · simp only [platform_identifier_for_filename, inferPlatformSpec, strContainsCI,
      hx64, hx86, hamd, hdash, harm, haarch, harm64]
  · simp only [platform_identifier_for_filename, platformKeys]
    split <;> [skip; split] <;> first
      | (split <;> simp)
      | simp

/-- Claim C10: The extension is matched case-sensitively even though the
architecture token is matched case-insensitively: any extension that is a
case variant of a known installer extension but not the lowercase spelling
itself falls through to `"unknown"`. -/
theorem claim_C10 (name ext : String)
    (hvariant : lowerStr ext = ".msi" ∨ lowerStr ext = ".exe" ∨ lowerStr ext = ".dmg")
    (hmsi : ext ≠ ".msi") (hexe : ext ≠ ".exe") (hdmg : ext ≠ ".dmg") :
    platform_identifier_for_filename name ext = "unknown" := by
  simp [platform_identifier_for_filename, hmsi, hexe, hdmg]

/-- Concrete instance of `claim_C10`: an uppercase `.MSI` extension on a
filename that clearly carries an x64 token still yields `"unknown"`. -/
theorem claim_C10_wit :
    lowerStr ".MSI" = ".msi" ∧
      platform_identifier_for_filename "App-x64-Setup.MSI" ".MSI" = "unknown" :=
  ⟨by decide, claim_C10 "App-x64-Setup.MSI" ".MSI" (Or.inl (by decide))
    (by decide) (by decide) (by decide)⟩

/-- Claim C1: For every run of the existence check: a definitive 200 from either
probed path (the second is only reached when the first was not definitive)
returns `true`; a definitive 404 likewise returns `false`; when both probes
answer with ambiguous statuses the result is exactly what the prefix-list
fallback determines; and when both probes raise, the check raises (the
spec's `TransportError`) instead of returning `false` — whatever the fallback
would have said. -/
theorem claim_C1 (p1 p2 : ProbeAns) (fb : ListAns) (path : String) :
    (p1 = ProbeAns.resp 200 →
      supabase_object_exists p1 p2 fb path = ExistsOut.ret true) ∧
    (nondefinitiveProbe p1 → p2 = ProbeAns.resp 200 →
      supabase_object_exists p1 p2 fb path = ExistsOut.ret true) ∧
    (p1 = ProbeAns.resp 404 →
      supabase_object_exists p1 p2 fb path = ExistsOut.ret false) ∧
    (nondefinitiveProbe p1 → p2 = ProbeAns.resp 404 →
      supabase_object_exists p1 p2 fb path = ExistsOut.ret false) ∧
    (ambiguousProbe p1 → ambiguousProbe p2 →
      supabase_object_exists p1 p2 fb path = ExistsOut.ret (listFallback fb path)) ∧
    (p1 = ProbeAns.raised → p2 = ProbeAns.raised →
      supabase_object_exists p1 p2 fb path = ExistsOut.raised) := by
  refine ⟨?_, ?_, ?_, ?_, ?_, ?_⟩
  · rintro rfl
    simp [supabase_object_exists, probeLoop]
  · rintro h1 rfl
    cases p1 with
    | raised => simp [supabase_object_exists, probeLoop]
    | resp s =>
      obtain ⟨hs1, hs2⟩ := h1
      simp [supabase_object_exists, probeLoop, hs1, hs2]
  · rintro rfl
    simp [supabase_object_exists, probeLoop]
  · rintro h1 rfl
    cases p1 with
    | raised => simp [supabase_object_exists, probeLoop]
    | resp s =>
      obtain ⟨hs1, hs2⟩ := h1
      simp [supabase_object_exists, probeLoop, hs1, hs2]
  · rintro h1 h2
    cases p1 with
    | raised => exact absurd h1 not_false
    | resp s1 =>
      cases p2 with
      | raised => exact absurd h2 not_false
      | resp s2 =>
        obtain ⟨ha1, ha2⟩ := h1
        obtain ⟨hb1, hb2⟩ := h2
        simp [supabase_object_exists, probeLoop, ha1, ha2, hb1, hb2]
  · rintro rfl rfl
    simp [supabase_object_exists, probeLoop]

/-- Concrete runs exercising every clause of `claim_C1`: a 200 on the first or
the second probe, a 404 on the first or the second probe, two ambiguous
probes handing over to the list fallback, and two raised probes raising even
though the fallback itself would also be unreachable. -/
theorem claim_C1_wit :
    supabase_object_exists (ProbeAns.resp 200) (ProbeAns.resp 500) ListAns.raised "obj"
        = ExistsOut.ret true ∧
    supabase_object_exists (ProbeAns.resp 500) (ProbeAns.resp 200) ListAns.raised "obj"
        = ExistsOut.ret true ∧
    supabase_object_exists (ProbeAns.resp 404) (ProbeAns.resp 200) ListAns.raised "obj"
        = ExistsOut.ret false ∧
    supabase_object_exists ProbeAns.raised (ProbeAns.resp 404) ListAns.raised "obj"
        = ExistsOut.ret false ∧
    supabase_object_exists (ProbeAns.resp 400) (ProbeAns.resp 500)
        (ListAns.resp 200 (some ["obj"])) "obj"
        = ExistsOut.ret (listFallback (ListAns.resp 200 (some ["obj"])) "obj") ∧
    supabase_object_exists ProbeAns.raised ProbeAns.raised ListAns.raised "obj"
        = ExistsOut.raised :=
  ⟨(claim_C1 (ProbeAns.resp 200) (ProbeAns.resp 500) ListAns.raised "obj").1 rfl,
   (claim_C1 (ProbeAns.resp 500) (ProbeAns.resp 200) ListAns.raised "obj").2.1
     (by simp [nondefinitiveProbe]) rfl,
   (claim_C1 (ProbeAns.resp 404) (ProbeAns.resp 200) ListAns.raised "obj").2.2.1 rfl,
   (claim_C1 ProbeAns.raised (ProbeAns.resp 404) ListAns.raised "obj").2.2.2.1
     (by simp [nondefinitiveProbe]) rfl,
   (claim_C1 (ProbeAns.resp 400) (ProbeAns.resp 500)
       (ListAns.resp 200 (some ["obj"])) "obj").2.2.2.2.1
     (by simp [ambiguousProbe]) (by simp [ambiguousProbe]),
   (claim_C1 ProbeAns.raised ProbeAns.raised ListAns.raised "obj").2.2.2.2.2 rfl rfl⟩

/-- Claim C3: Idempotency of the upload step against an ideal store: the second
run of the step for the same key issues zero upload requests, and when the key
is initially absent the two runs together issue exactly one. -/
theorem claim_C3 (store : List String) (k : String) :
    (upload_step (upload_step store k).1 k).2 = 0 ∧
    (store.contains k = false →
      (upload_step store k).2 + (upload_step (upload_step store k).1 k).2 = 1) := by
  constructor
  · by_cases h : k ∈ store
    · simp [upload_step, h]
    · simp [upload_step, h]
  · intro h
    have h' : ¬ k ∈ store := by simpa using h
    simp [upload_step, h']

/-- Concrete instance of `claim_C3`: starting from an empty store, uploading
`App.msi` twice issues exactly one upload request, and the second run issues
none. -/
theorem claim_C3_wit :
    ([] : List String).contains "App.msi" = false ∧
    (upload_step [] "App.msi").2 + (upload_step (upload_step [] "App.msi").1 "App.msi").2 = 1 ∧
    (upload_step (upload_step [] "App.msi").1 "App.msi").2 = 0 :=
  ⟨rfl, (claim_C3 [] "App.msi").2 rfl, (claim_C3 [] "App.msi").1⟩

/-- The running best of Python `max` is either the initial element or comes
from the list. -/
theorem foldl_pick_mem (xs : List (String × Nat)) :
    ∀ a, xs.foldl pickStep a = a ∨ xs.foldl pickStep a ∈ xs := by
  induction xs with
  | nil =>
    intro a
    exact Or.inl rfl
  | cons x xs ih =>
    intro a
    simp only [List.foldl_cons]
    rcases ih (pickStep a x) with h | h
    · rw [h]
      by_cases hc : a.2 < x.2
      · right
        simp [pickStep, hc]
      · left
        simp [pickStep, hc]
    · right
      exact List.mem_cons_of_mem _ h

/-- The running best of Python `max` dominates the initial element and every
list element. -/
theorem foldl_pick_ge (xs : List (String × Nat)) :
    ∀ a, a.2 ≤ (xs.foldl pickStep a).2 ∧ ∀ y ∈ xs, y.2 ≤ (xs.foldl pickStep a).2 := by
  induction xs with
  | nil =>
    intro a
    exact ⟨Nat.le_refl _, by simp⟩
  | cons x xs ih =>
    intro a
    obtain ⟨h1, h2⟩ := ih (pickStep a x)
    have ha : a.2 ≤ (pickStep a x).2 := by
      by_cases hc : a.2 < x.2 <;> simp [pickStep, hc]
      exact Nat.le_of_lt hc
    have hx : x.2 ≤ (pickStep a x).2 := by
      by_cases hc : a.2 < x.2 <;> simp [pickStep, hc]
      exact Nat.le_of_not_lt hc
    refine ⟨Nat.le_trans ha h1, ?_⟩
    intro y hy
    rcases List.mem_cons.mp hy with rfl | hy
    · exact Nat.le_trans hx h1
    · exact h2 y hy

/-- Membership in the candidate list of `find_latest_installer`: a file is a
candidate iff it is in the tree and its name matches one of the fixed
extensions. -/
theorem mem_installerCandidates (files : List (String × Nat)) (g : String × Nat) :
    g ∈ installerCandidates files ↔
      g ∈ files ∧ ∃ e ∈ installerExts, strEndsWith g.1 e = true := by
  constructor
  · intro hg
    obtain ⟨l, hl, hgl⟩ := List.mem_flatten.mp hg
    obtain ⟨e, he, rfl⟩ := List.mem_map.mp hl
    obtain ⟨hgf, hmatch⟩ := List.mem_filter.mp hgl
    exact ⟨hgf, e, he, hmatch⟩
  · rintro ⟨hg, e, he, hmatch⟩
    refine List.mem_flatten.mpr ⟨_, List.mem_map.mpr ⟨e, he, rfl⟩, ?_⟩
    exact List.mem_filter.mpr ⟨hg, hmatch⟩

/-- Claim C7: `find_latest_installer` returns `none` when the bundle directory
does not exist, and `none` when it exists but holds no file with an extension
in the fixed set; otherwise the result is a file of the tree matching one of
the fixed extensions whose modification time is maximal among all matching
files. -/
theorem claim_C7 (files : List (String × Nat)) :
    find_latest_installer none = none ∧
    ((∀ f ∈ files, ∀ e ∈ installerExts, strEndsWith f.1 e = false) →
      find_latest_installer (some files) = none) ∧
    (∀ res, find_latest_installer (some files) = some res →
      res ∈ files ∧ (∃ e ∈ installerExts, strEndsWith res.1 e = true) ∧
        ∀ g ∈ files, (∃ e ∈ installerExts, strEndsWith g.1 e = true) → g.2 ≤ res.2) := by
  refine ⟨rfl, ?_, ?_⟩
  · intro hnone
    have hempty : installerCandidates files = [] := by
      refine List.eq_nil_iff_forall_not_mem.mpr ?_
      intro g hg
      obtain ⟨hgf, e, he, hmatch⟩ := (mem_installerCandidates files g).mp hg
      have := hnone g hgf e he
      rw [this] at hmatch
      exact Bool.false_ne_true hmatch
    simp [find_latest_installer, hempty, pickLatest]
  · intro res hres
    rw [find_latest_installer] at hres
    rcases hcand : installerCandidates files with _ | ⟨x, xs⟩
    · rw [hcand] at hres
      simp [pickLatest] at hres
    · rw [hcand] at hres
      simp only [pickLatest, Option.some.injEq] at hres
      have hresmem : res ∈ installerCandidates files := by
        rw [hcand]
        rcases foldl_pick_mem xs x with h | h
        · rw [hres] at h
          rw [h]
          exact List.mem_cons_self _ _
        · rw [hres] at h
          exact List.mem_cons_of_mem _ h
      obtain ⟨hrf, hre⟩ := (mem_installerCandidates files res).mp hresmem
      refine ⟨hrf, hre, ?_⟩
      intro g hgf hge
      have hgmem : g ∈ installerCandidates files :=
        (mem_installerCandidates files g).mpr ⟨hgf, hge⟩
      rw [hcand] at hgmem
      obtain ⟨h1, h2⟩ := foldl_pick_ge xs x
      rw [hres] at h1 h2
      rcases List.mem_cons.mp hgmem with rfl | hgmem
      · exact h1
      · exact h2 g hgmem

/-- Concrete instance of `claim_C7`: a tree with only a text file yields no
installer, and in a mixed tree the newest matching file (`b.dmg`, mtime 7)
wins over an older installer and a newer non-installer. -/
theorem claim_C7_wit :
    find_latest_installer (some [("c.txt", 99)]) = none ∧
    (("b.dmg", 7) ∈ [("a.msi", 3), ("b.dmg", 7), ("c.txt", 99)] ∧
      (∃ e ∈ installerExts, strEndsWith "b.dmg" e = true) ∧
      ∀ g ∈ [("a.msi", 3), ("b.dmg", 7), ("c.txt", 99)],
        (∃ e ∈ installerExts, strEndsWith g.1 e = true) → g.2 ≤ 7) :=
  ⟨(claim_C7 [("c.txt", 99)]).2.1 (by decide),
   (claim_C7 [("a.msi", 3), ("b.dmg", 7), ("c.txt", 99)]).2.2 ("b.dmg", 7) (by decide)⟩

/-- When the upload loop completes without an early return, every key was
resolved: either the object already existed, or an upload was issued and
accepted with 200/201. -/
theorem uploadPhase_none (ex : String → ExistsAns) (up : String → Nat) :
    ∀ ks, (uploadPhase ex up ks).2 = none →
      ∀ k ∈ ks, ex k = ExistsAns.val true ∨
        (ex k = ExistsAns.val false ∧ (up k = 200 ∨ up k = 201)) := by
  intro ks
  induction ks with
  | nil => simp
  | cons k rest ih =>
    intro h k' hk'
    rcases hek : ex k with ⟨b⟩ | _
    · cases b with
      | true =>
        simp only [uploadPhase, hek] at h
        rcases List.mem_cons.mp hk' with rfl | hk'
        · exact Or.inl hek
        · exact ih h k' hk'
      | false =>
        by_cases hup : up k = 200 ∨ up k = 201
        · simp only [uploadPhase, hek, if_pos hup] at h
          rcases List.mem_cons.mp hk' with rfl | hk'
          · exact Or.inr ⟨hek, hup⟩
          · exact ih h k' hk'
        · simp [uploadPhase, hek, if_neg hup] at h
    · simp [uploadPhase, hek] at h

/-- An early return of the upload loop carries exit code 6 (existence-check
exception) or 7 (upload rejected). -/
theorem uploadPhase_some (ex : String → ExistsAns) (up : String → Nat) :
    ∀ ks e, (uploadPhase ex up ks).2 = some e → e = 6 ∨ e = 7 := by
  intro ks
  induction ks with
  | nil => simp [uploadPhase]
  | cons k rest ih =>
    intro e h
    rcases hek : ex k with ⟨b⟩ | _
    · cases b with
      | true =>
        simp only [uploadPhase, hek] at h
        exact ih e h
      | false =>
        by_cases hup : up k = 200 ∨ up k = 201
        · simp only [uploadPhase, hek, if_pos hup] at h
          exact ih e h
        · simp only [uploadPhase, hek, if_neg hup, Option.some.injEq] at h
          exact Or.inr h.symm
    · simp only [uploadPhase, hek, Option.some.injEq] at h
      exact Or.inl h.symm

/-- Claim C4: The manifest is written exactly on the fully successful runs
(exit code 0), never on a failing one; and whenever it is written, an
installer and its signature were located and, for both object keys, the
existence check answered `true` or an upload was issued and accepted with
200/201 — i.e. manifest synthesis only runs after both uploads are resolved
as pre-existing or freshly uploaded. -/
theorem claim_C4 (w : RunWorld) :
    ((mainModel w).manifestWritten = true ↔ (mainModel w).exitCode = 0) ∧
    ((mainModel w).manifestWritten = true →
      ∃ inst sg, find_latest_installer w.bundle = some inst ∧
        find_sig_file w.sigDir inst.1 = some sg ∧
        ∀ k, k = inst.1 ∨ k = sg →
          (w.existsAns k = ExistsAns.val true ∨
            (w.existsAns k = ExistsAns.val false ∧
              (w.uploadStatus k = 200 ∨ w.uploadStatus k = 201)))) := by
  unfold mainModel
  by_cases hcfg : resolvedUrl w = none ∨ resolvedKey w = none
  · simp [hcfg]
  · rw [if_neg hcfg]
    cases hreq : w.requestsInstalled with
    | false => simp
    | true =>
      simp only [Bool.not_true, Bool.false_eq_true, if_false]
      by_cases hbld : (!w.no_build && !w.buildOk) = true
      · simp [hbld]
      · rw [if_neg hbld]
        cases hinst : find_latest_installer w.bundle with
        | none => simp [hinst]
        | some inst =>
          simp only [hinst]
          cases hsig : find_sig_file w.sigDir inst.1 with
          | none => simp [hsig]
          | some sg =>
            simp only [hsig]
            cases hup : (uploadPhase w.existsAns w.uploadStatus [inst.1, sg]).2 with
            | some e =>
              simp only [hup]
              rcases uploadPhase_some w.existsAns w.uploadStatus [inst.1, sg] e hup
                with rfl | rfl <;> simp
            | none =>
              simp only [hup]
              refine ⟨by simp, fun _ => ⟨inst, sg, rfl, hsig, ?_⟩⟩
              intro k hk
              refine uploadPhase_none w.existsAns w.uploadStatus [inst.1, sg] hup k ?_
              rcases hk with rfl | rfl
              · exact List.mem_cons_self _ _
              · exact List.mem_cons_of_mem _ (List.mem_cons_self _ _)

/-- Concrete instance of `claim_C4`: in the fresh-store world the run succeeds,
the manifest is written, and both object keys were freshly uploaded with an
accepted status. -/
theorem claim_C4_wit :
    (mainModel wFresh).manifestWritten = true ∧
    (mainModel wFresh).exitCode = 0 ∧
    (∃ inst sg, find_latest_installer wFresh.bundle = some inst ∧
      find_sig_file wFresh.sigDir inst.1 = some sg ∧
      ∀ k, k = inst.1 ∨ k = sg →
        (wFresh.existsAns k = ExistsAns.val true ∨
          (wFresh.existsAns k = ExistsAns.val false ∧
            (wFresh.uploadStatus k = 200 ∨ wFresh.uploadStatus k = 201)))) :=
  ⟨by decide, (claim_C4 wFresh).1.mp (by decide), (claim_C4 wFresh).2 (by decide)⟩

/-- Claim C8, counterexample: The claim asserts that every exit code is either 0
(success) or the distinct code of one of the six failure classes of the error
taxonomy — identified in the amended claim as 2 (ConfigError),
3 (BuildError), 4 (ArtifactNotFoundError), 5 (SignatureNotFoundError),
6 (TransportError), 7 (UploadRejectedError).  The run `wNoReq`, identical to
the healthy run except that the `requests` dependency is missing, exits with
code 1, which lies outside that enumeration. -/
theorem claim_C8_counterexample :
    (mainModel wNoReq).exitCode = 1 ∧
      (mainModel wNoReq).exitCode ∉ ([0, 2, 3, 4, 5, 6, 7] : List Nat) := by
  constructor
  · decide
  · decide

/-- Claim C8, amended: The exit codes form the closed enumeration
`{0, 1, 2, 3, 4, 5, 6, 7}`: 0 for full success, one distinct nonzero code per
failure class of the taxonomy (2 ConfigError, 3 BuildError, 4
ArtifactNotFoundError, 5 SignatureNotFoundError, 6 TransportError, 7
UploadRejectedError) — each exhibited by a concrete run — and additionally 1
when the `requests` dependency is missing, a failure outside the six-class
taxonomy. -/
theorem claim_C8 (w : RunWorld) :
    (mainModel w).exitCode ∈ ([0, 1, 2, 3, 4, 5, 6, 7] : List Nat) ∧
    (mainModel wCfg).exitCode = 2 ∧
    (mainModel wBld).exitCode = 3 ∧
    (mainModel wNoInst).exitCode = 4 ∧
    (mainModel wNoSig).exitCode = 5 ∧
    (mainModel wTransport).exitCode = 6 ∧
    (mainModel wRejected).exitCode = 7 ∧
    (mainModel wNoReq).exitCode = 1 ∧
    (mainModel wBase).exitCode = 0 := by
  refine ⟨?_, by decide, by decide, by decide, by decide, by decide, by decide,
    by decide, by decide⟩
  unfold mainModel
  by_cases hcfg : resolvedUrl w = none ∨ resolvedKey w = none
  · simp [hcfg]
  · rw [if_neg hcfg]
    cases hreq : w.requestsInstalled with
    | false => simp
    | true =>
      simp only [Bool.not_true, Bool.false_eq_true, if_false]
      by_cases hbld : (!w.no_build && !w.buildOk) = true
      · simp [hbld]
      · rw [if_neg hbld]
        cases hinst : find_latest_installer w.bundle with
        | none => simp [hinst]
        | some inst =>
          simp only [hinst]
          cases hsig : find_sig_file w.sigDir inst.1 with
          | none => simp [hsig]
          | some sg =>
            simp only [hsig]
            cases hup : (uploadPhase w.existsAns w.uploadStatus [inst.1, sg]).2 with
            | some e =>
              simp only [hup]
              rcases uploadPhase_some w.existsAns w.uploadStatus [inst.1, sg] e hup
                with rfl | rfl <;> simp
            | none =>
              simp [hup]

/-- The bucket recorded in the outcome is the resolved bucket on every path of
`main`. -/
theorem mainModel_bucket (w : RunWorld) : (mainModel w).bucket = resolvedBucket w := by
  unfold mainModel
  by_cases hcfg : resolvedUrl w = none ∨ resolvedKey w = none
  · simp [hcfg]
  · rw [if_neg hcfg]
    cases hreq : w.requestsInstalled with
    | false => simp
    | true =>
      simp only [Bool.not_true, Bool.false_eq_true, if_false]
      by_cases hbld : (!w.no_build && !w.buildOk) = true
      · simp [hbld]
      · rw [if_neg hbld]
        cases hinst : find_latest_installer w.bundle with
        | none => simp [hinst]
        | some inst =>
          simp only [hinst]
          cases hsig : find_sig_file w.sigDir inst.1 with
          | none => simp [hsig]
          | some sg =>
            simp only [hsig]
            cases hup : (uploadPhase w.existsAns w.uploadStatus [inst.1, sg]).2 with
            | some e => simp [hup]
            | none => simp [hup]

/-- Claim C9: When the storage endpoint or the credential cannot be resolved
from the process environment or the settings file, the run exits with the
configuration-error code 2 (no upload, no manifest); when additionally the
settings file is absent, the placeholder settings file is written before
failing, and that placeholder parses to the three documented keys; and the
bucket name defaults to the literal `"binaries"` whenever the command line,
the environment and the settings file all fail to provide one. -/
theorem claim_C9 (w : RunWorld) :
    ((resolvedUrl w = none ∨ resolvedKey w = none) →
      (mainModel w).exitCode = 2 ∧ (mainModel w).manifestWritten = false ∧
        (mainModel w).uploadedKeys = []) ∧
    ((resolvedUrl w = none ∨ resolvedKey w = none) → w.dotenvLines = none →
      (mainModel w).placeholderWritten = true) ∧
    (dictGet (load_dotenv placeholderLines) "SUPABASE_URL"
        = some "https://your-supabase.example.com" ∧
      dictGet (load_dotenv placeholderLines) "SUPABASE_KEY"
        = some "your-service-role-key" ∧
      dictGet (load_dotenv placeholderLines) "SUPABASE_BUCKET" = some "binaries") ∧
    (w.bucketArg = none → w.envBucket = none →
      dictGet (dotenvMap w) "SUPABASE_BUCKET" = none →
      (mainModel w).bucket = "binaries") := by
  refine ⟨?_, ?_, by decide, ?_⟩
  · intro hcfg
    simp [mainModel, hcfg]
  · intro hcfg hdot
    simp [mainModel, hcfg, hdot]
  · intro h1 h2 h3
    rw [mainModel_bucket]
    simp [resolvedBucket, pyFirst, h1, h2, h3]

/-- Concrete instance of `claim_C9`: with no environment variables and no
settings file, the run exits 2 having written the placeholder (whose lines
carry the documented keys), uploads nothing, writes no manifest, and resolves
the bucket to `"binaries"`. -/
theorem claim_C9_wit :
    (mainModel wCfg).exitCode = 2 ∧ (mainModel wCfg).manifestWritten = false ∧
    (mainModel wCfg).uploadedKeys = [] ∧
    (mainModel wCfg).placeholderWritten = true ∧
    (mainModel wCfg).bucket = "binaries" :=
  ⟨((claim_C9 wCfg).1 (Or.inl (by decide))).1,
   ((claim_C9 wCfg).1 (Or.inl (by decide))).2.1,
   ((claim_C9 wCfg).1 (Or.inl (by decide))).2.2,
   (claim_C9 wCfg).2.1 (Or.inl (by decide)) rfl,
   (claim_C9 wCfg).2.2.2 rfl rfl (by decide)⟩

/-- A filename is its first part followed by its `pathlib` suffix. -/
theorem take_append_pathSuffix (l : List Char) :
    l.take (l.length - (pathSuffixL l).length) ++ pathSuffixL l = l := by
  by_cases hc : (l.reverse.takeWhile (fun c => c != '.')).length + 1 < l.length ∧
      0 < (l.reverse.takeWhile (fun c => c != '.')).length
  case neg =>
    have h1 : pathSuffixL l = [] := by rw [pathSuffixL, if_neg hc]
    rw [h1]
    simp
  case pos =>
    have h1 : pathSuffixL l = '.' :: (l.reverse.takeWhile (fun c => c != '.')).reverse := by
      rw [pathSuffixL, if_pos hc]
    have hsplit := List.takeWhile_append_dropWhile (fun c => c != '.') l.reverse
    have hdne : l.reverse.dropWhile (fun c => c != '.') ≠ [] := by
      intro h0
      rw [h0, List.append_nil] at hsplit
      have h2 : (l.reverse.takeWhile (fun c => c != '.')).length = l.length := by
        rw [hsplit, List.length_reverse]
      omega
    obtain ⟨c, d', hd⟩ := List.exists_cons_of_ne_nil hdne
    have hcdot : c = '.' := by
      have h2 := List.head_dropWhile_not (fun c => c != '.') l.reverse hdne
      simp only [hd, List.head_cons] at h2
      simpa using h2
    subst hcdot
    rw [hd] at hsplit
    have hl : l = d'.reverse ++ ('.' :: (l.reverse.takeWhile (fun c => c != '.')).reverse) := by
      have h3 := congrArg List.reverse hsplit
      simp only [List.reverse_append, List.reverse_cons, List.reverse_reverse,
        List.append_assoc, List.singleton_append] at h3
      exact h3.symm
    have hlen := congrArg List.length hl
    simp only [List.length_append, List.length_cons, List.length_reverse] at hlen
    have hcount : l.length - (pathSuffixL l).length = d'.reverse.length := by
      rw [h1]
      simp only [List.length_cons, List.length_reverse]
      omega
    have htake : l.take d'.reverse.length = d'.reverse := by
      rw [hl]
      exact List.take_left' rfl
    rw [hcount, h1, htake]
    exact hl.symm

/-- Claim C2, counterexample: The claim's second candidate `<installer-stem>.sig`
is never tried: with installer `App.exe` and directory `[App-x.sig, App.sig]`,
the spec's three-candidate order (`findSignatureSpec`) picks the exact-stem
file `App.sig`, while the code falls through to the glob and returns the first
listed match `App-x.sig`. -/
theorem claim_C2_counterexample :
    find_sig_file ["App-x.sig", "App.sig"] "App.exe" = some "App-x.sig" ∧
    findSignatureSpec ["App-x.sig", "App.sig"] "App.exe" = some "App.sig" ∧
    find_sig_file ["App-x.sig", "App.sig"] "App.exe" ≠
      findSignatureSpec ["App-x.sig", "App.sig"] "App.exe" :=
  ⟨by decide, by decide, by decide⟩

/-- Claim C2, amended: `find_sig_file` tries `<installer-name>.sig` twice — its
second candidate, built by replacing the suffix with `<suffix>.sig`, is
provably the same filename as the first — and then any file matching
`<installer-stem>*.sig` in the directory, returning the first existing
candidate (so the effective search order is `<installer-name>.sig`, then the
glob; `<installer-stem>.sig` is never tried as an exact candidate, though the
glob can find it).  If no candidate exists it returns `None`, and a run whose
earlier stages succeeded then fails with exit code 5, zero uploads and no
manifest. -/
theorem claim_C2 (dir : List String) (name : String) :
    withSuffixS name (pathSuffixS name ++ ".sig") = name ++ ".sig" ∧
    find_sig_file dir name =
      (if dir.contains (name ++ ".sig") then some (name ++ ".sig")
       else (dir.filter (fun f => sigGlobMatches (stemS name) f)).head?) ∧
    (∀ w : RunWorld, ∀ inst,
      ¬(resolvedUrl w = none ∨ resolvedKey w = none) →
      w.requestsInstalled = true →
      (!w.no_build && !w.buildOk) = false →
      find_latest_installer w.bundle = some inst →
      find_sig_file w.sigDir inst.1 = none →
      (mainModel w).exitCode = 5 ∧ (mainModel w).uploadedKeys = [] ∧
        (mainModel w).manifestWritten = false) := by
  have h1 : withSuffixS name (pathSuffixS name ++ ".sig") = name ++ ".sig" := by
    apply String.ext
    show name.toList.take (name.toList.length - (pathSuffixL name.toList).length)
        ++ (pathSuffixL name.toList ++ ".sig".toList) = name.toList ++ ".sig".toList
    rw [← List.append_assoc, take_append_pathSuffix]
  refine ⟨h1, ?_, ?_⟩
  · rw [show find_sig_file dir name =
        (if dir.contains (name ++ ".sig") then some (name ++ ".sig")
         else if dir.contains (withSuffixS name (pathSuffixS name ++ ".sig")) then
           some (withSuffixS name (pathSuffixS name ++ ".sig"))
         else (dir.filter (fun f => sigGlobMatches (stemS name) f)).head?) from rfl]
    rw [h1]
    by_cases hc : dir.contains (name ++ ".sig") = true
    · rw [if_pos hc, if_pos hc]
    · rw [if_neg hc, if_neg hc]
  · intro w inst hcfg hreq hbld hinst hsigf
    unfold mainModel
    rw [if_neg hcfg]
    simp only [hreq, Bool.not_true, Bool.false_eq_true, if_false]
    rw [if_neg (by simp [hbld])]
    simp [hinst, hsigf]

/-- Concrete instance of `claim_C2`: in the world `wNoSig` the installer is
found but its directory holds no signature candidate at all, and the run
fails with exit code 5, zero uploads and no manifest. -/
theorem claim_C2_wit :
    (mainModel wNoSig).exitCode = 5 ∧ (mainModel wNoSig).uploadedKeys = [] ∧
      (mainModel wNoSig).manifestWritten = false :=
  (claim_C2 [] "x").2.2 wNoSig ("App_1.2.0_x64.msi", 5) (by decide) (by decide)
    (by decide) (by decide) (by decide)

/-! ### Lemmas on the version-pattern matcher (claim C6) -/

/-- The predicate `Char.isDigit` rejects the dot. -/
theorem dot_not_digit : Char.isDigit '.' = false := by decide

/-- A member of a digit run is a digit. -/
theorem mem_takeWhile_digits (X : List Char) :
    ∀ a ∈ X.takeWhile Char.isDigit, Char.isDigit a := by
  intro a ha
  have h : (X.takeWhile Char.isDigit).all Char.isDigit = true := by simp
  exact List.all_eq_true.mp h a ha

/-- The fuel of `matchGroupsF` is irrelevant once it bounds the input
length. -/
theorem matchGroupsF_irrel :
    ∀ (n m : Nat) (l : List Char), l.length ≤ n → l.length ≤ m →
      matchGroupsF n l = matchGroupsF m l := by
  intro n
  induction n with
  | zero =>
    intro m l h1 _
    have hl : l = [] := List.length_eq_zero.mp (Nat.le_zero.mp h1)
    subst hl
    cases m <;> rfl
  | succ n ih =>
    intro m l h1 h2
    cases m with
    | zero =>
      have hl : l = [] := List.length_eq_zero.mp (Nat.le_zero.mp h2)
      subst hl
      rfl
    | succ m =>
      cases l with
      | nil => rfl
      | cons c l' =>
        cases l' with
        | nil => rfl
        | cons c2 rest =>
          simp only [matchGroupsF]
          by_cases h : c = '.' ∧ c2.isDigit
          · simp only [if_pos h]
            have hsub : List.Sublist ((c2 :: rest).dropWhile Char.isDigit) (c2 :: rest) :=
              List.dropWhile_sublist _
            have hsl := hsub.length_le
            simp only [List.length_cons] at hsl h1 h2
            rw [ih m ((c2 :: rest).dropWhile Char.isDigit) (by omega) (by omega)]
          · simp only [if_neg h]

/-- Unfolding `matchGroups` on an input of length at least two. -/
theorem matchGroups_cons_cons (c c2 : Char) (rest : List Char) :
    matchGroups (c :: c2 :: rest) =
      if c = '.' ∧ c2.isDigit then
        (c :: ((c2 :: rest).takeWhile Char.isDigit ++
            (matchGroups ((c2 :: rest).dropWhile Char.isDigit)).1),
          (matchGroups ((c2 :: rest).dropWhile Char.isDigit)).2)
      else ([], c :: c2 :: rest) := by
  have hstep : matchGroups (c :: c2 :: rest) =
      if c = '.' ∧ c2.isDigit then
        (c :: ((c2 :: rest).takeWhile Char.isDigit ++
            (matchGroupsF (rest.length + 1) ((c2 :: rest).dropWhile Char.isDigit)).1),
          (matchGroupsF (rest.length + 1) ((c2 :: rest).dropWhile Char.isDigit)).2)
      else ([], c :: c2 :: rest) := rfl
  rw [hstep]
  have hsub : List.Sublist ((c2 :: rest).dropWhile Char.isDigit) (c2 :: rest) :=
    List.dropWhile_sublist _
  have hsl := hsub.length_le
  simp only [List.length_cons] at hsl
  rw [matchGroupsF_irrel (rest.length + 1) ((c2 :: rest).dropWhile Char.isDigit).length
    ((c2 :: rest).dropWhile Char.isDigit) (by omega) (Nat.le_refl _)]
  rfl

/-- The fuel of `isGroupsF` is irrelevant once it bounds the input length. -/
theorem isGroupsF_irrel :
    ∀ (n m : Nat) (l : List Char), l.length ≤ n → l.length ≤ m →
      isGroupsF n l = isGroupsF m l := by
  intro n
  induction n with
  | zero =>
    intro m l h1 _
    have hl : l = [] := List.length_eq_zero.mp (Nat.le_zero.mp h1)
    subst hl
    cases m <;> rfl
  | succ n ih =>
    intro m l h1 h2
    cases m with
    | zero =>
      have hl : l = [] := List.length_eq_zero.mp (Nat.le_zero.mp h2)
      subst hl
      rfl
    | succ m =>
      cases l with
      | nil => rfl
      | cons c r =>
        simp only [isGroupsF]
        have hsub : List.Sublist (r.dropWhile Char.isDigit) r := List.dropWhile_sublist _
        have hsl := hsub.length_le
        simp only [List.length_cons] at h1 h2
        rw [ih m (r.dropWhile Char.isDigit) (by omega) (by omega)]

/-- Unfolding `isGroupsB` on a nonempty input. -/
theorem isGroupsB_cons (c : Char) (r : List Char) :
    isGroupsB (c :: r) =
      (c == '.' && !(r.takeWhile Char.isDigit).isEmpty &&
        isGroupsB (r.dropWhile Char.isDigit)) := by
  have hstep : isGroupsB (c :: r) =
      (c == '.' && !(r.takeWhile Char.isDigit).isEmpty &&
        isGroupsF r.length (r.dropWhile Char.isDigit)) := rfl
  rw [hstep]
  have hsub : List.Sublist (r.dropWhile Char.isDigit) r := List.dropWhile_sublist _
  rw [isGroupsF_irrel r.length (r.dropWhile Char.isDigit).length (r.dropWhile Char.isDigit)
    hsub.length_le (Nat.le_refl _)]
  rfl

/-- A nonempty group sequence starts with a dot. -/
theorem isGroupsB_head (c : Char) (r : List Char) (h : isGroupsB (c :: r) = true) :
    c = '.' := by
  rw [isGroupsB_cons] at h
  simp only [Bool.and_eq_true, beq_iff_eq] at h
  exact h.1.1

/-- A group sequence is empty or starts with a dot. -/
theorem isGroupsB_shape (g : List Char) (h : isGroupsB g = true) :
    g = [] ∨ ∃ g', g = '.' :: g' := by
  cases g with
  | nil => exact Or.inl rfl
  | cons c g' =>
    right
    exact ⟨g', by rw [isGroupsB_head c g' h]⟩

/-- Splitting a digit run followed by a group sequence: the digit run is the
maximal digit run of the concatenation. -/
theorem span_digits_groups (d g : List Char) (hd : ∀ a ∈ d, Char.isDigit a)
    (hg : isGroupsB g = true) :
    (d ++ g).takeWhile Char.isDigit = d ∧ (d ++ g).dropWhile Char.isDigit = g := by
  rcases isGroupsB_shape g hg with rfl | ⟨g', rfl⟩
  · constructor
    · rw [List.takeWhile_append_of_pos hd]
      simp
    · rw [List.dropWhile_append_of_pos hd]
      rfl
  · constructor
    · rw [List.takeWhile_append_of_pos hd, List.takeWhile_cons_of_neg (by simp [dot_not_digit])]
      simp
    · rw [List.dropWhile_append_of_pos hd, List.dropWhile_cons_of_neg (by simp [dot_not_digit])]

/-- A digit run survives as a lower bound of the maximal digit run of any
extension. -/
theorem length_takeWhile_ge (b t : List Char) (hb : ∀ a ∈ b, Char.isDigit a) :
    b.length ≤ ((b ++ t).takeWhile Char.isDigit).length := by
  rw [List.takeWhile_append_of_pos hb]
  simp

/-- Soundness of the greedy group matcher (bounded induction): the consumed
part and the rest reassemble the input, and the consumed part is a group
sequence. -/
theorem matchGroups_spec_aux (n : Nat) :
    ∀ l : List Char, l.length ≤ n →
      (matchGroups l).1 ++ (matchGroups l).2 = l ∧
        isGroupsB (matchGroups l).1 = true := by
  induction n with
  | zero =>
    intro l h
    have hl : l = [] := List.length_eq_zero.mp (Nat.le_zero.mp h)
    subst hl
    exact ⟨rfl, rfl⟩
  | succ n ih =>
    intro l hlen
    cases l with
    | nil => exact ⟨rfl, rfl⟩
    | cons c l' =>
      cases l' with
      | nil => exact ⟨rfl, rfl⟩
      | cons c2 rest =>
        rw [matchGroups_cons_cons]
        by_cases h : c = '.' ∧ c2.isDigit
        · rw [if_pos h]
          have hsub : List.Sublist ((c2 :: rest).dropWhile Char.isDigit) (c2 :: rest) :=
            List.dropWhile_sublist _
          have hsl := hsub.length_le
          simp only [List.length_cons] at hsl hlen
          obtain ⟨ih1, ih2⟩ := ih ((c2 :: rest).dropWhile Char.isDigit) (by omega)
          constructor
          · show c :: ((c2 :: rest).takeWhile Char.isDigit ++
                (matchGroups ((c2 :: rest).dropWhile Char.isDigit)).1) ++
                (matchGroups ((c2 :: rest).dropWhile Char.isDigit)).2 = c :: c2 :: rest
            rw [List.cons_append, List.append_assoc, ih1,
              List.takeWhile_append_dropWhile]
          · show isGroupsB (c :: ((c2 :: rest).takeWhile Char.isDigit ++
                (matchGroups ((c2 :: rest).dropWhile Char.isDigit)).1)) = true
            rw [isGroupsB_cons]
            obtain ⟨htw, hdw⟩ := span_digits_groups ((c2 :: rest).takeWhile Char.isDigit)
              (matchGroups ((c2 :: rest).dropWhile Char.isDigit)).1
              (mem_takeWhile_digits _) ih2
            rw [htw, hdw]
            rw [List.takeWhile_cons_of_pos h.2]
            simp [h.1, ih2]
        · rw [if_neg h]
          exact ⟨rfl, rfl⟩

/-- Soundness of the greedy group matcher. -/
theorem matchGroups_spec (l : List Char) :
    (matchGroups l).1 ++ (matchGroups l).2 = l ∧
      isGroupsB (matchGroups l).1 = true :=
  matchGroups_spec_aux l.length l (Nat.le_refl _)

/-- Maximality of the greedy group matcher (bounded induction): any group
sequence prefixing the input is at most as long as the consumed part. -/
theorem matchGroups_max_aux (n : Nat) :
    ∀ l g : List Char, l.length ≤ n → isGroupsB g = true → (∃ t, g ++ t = l) →
      g.length ≤ (matchGroups l).1.length := by
  induction n with
  | zero =>
    intro l g h1 _ hex
    obtain ⟨t, ht⟩ := hex
    have hl : l = [] := List.length_eq_zero.mp (Nat.le_zero.mp h1)
    subst hl
    have hgnil : g = [] := (List.append_eq_nil.mp ht).1
    simp [hgnil]
  | succ n ih =>
    intro l g hlen hg hex
    obtain ⟨t, ht⟩ := hex
    cases g with
    | nil => simp
    | cons c grest =>
      have hc : c = '.' := isGroupsB_head c grest hg
      subst hc
      rw [isGroupsB_cons] at hg
      simp only [Bool.and_eq_true] at hg
      obtain ⟨⟨-, htw⟩, hgrec⟩ := hg
      have htwne : grest.takeWhile Char.isDigit ≠ [] := by
        intro h0
        rw [h0] at htw
        simp at htw
      obtain ⟨c2, b2, hb⟩ := List.exists_cons_of_ne_nil htwne
      have hc2 : Char.isDigit c2 :=
        mem_takeWhile_digits grest c2 (by rw [hb]; exact List.mem_cons_self _ _)
      have hsplit : grest.takeWhile Char.isDigit ++ grest.dropWhile Char.isDigit = grest :=
        List.takeWhile_append_dropWhile _ _
      have hlform : ('.' :: grest) ++ t
          = '.' :: c2 :: (b2 ++ (grest.dropWhile Char.isDigit ++ t)) := by
        rw [List.cons_append]
        rw [show grest ++ t = c2 :: (b2 ++ (grest.dropWhile Char.isDigit ++ t)) from by
          conv_lhs => rw [← hsplit]
          rw [hb]
          simp [List.append_assoc]]
      rw [← ht, hlform, matchGroups_cons_cons, if_pos ⟨rfl, hc2⟩]
      have hreassoc : c2 :: (b2 ++ (grest.dropWhile Char.isDigit ++ t))
          = grest.takeWhile Char.isDigit ++ (grest.dropWhile Char.isDigit ++ t) := by
        rw [hb]
        rfl
      rw [hreassoc]
      rcases isGroupsB_shape _ hgrec with hD | ⟨dwg', hD⟩
      · have hgb : grest = grest.takeWhile Char.isDigit := by
          conv_lhs => rw [← hsplit]
          rw [hD]
          simp
        have hge := length_takeWhile_ge (grest.takeWhile Char.isDigit) t
          (mem_takeWhile_digits grest)
        rw [hD]
        simp only [List.nil_append, List.length_cons, List.length_append]
        have hlg := congrArg List.length hgb
        omega
      · have htwX : (grest.takeWhile Char.isDigit ++
            (grest.dropWhile Char.isDigit ++ t)).takeWhile Char.isDigit
            = grest.takeWhile Char.isDigit := by
          rw [List.takeWhile_append_of_pos (mem_takeWhile_digits grest), hD,
            List.cons_append, List.takeWhile_cons_of_neg (by simp [dot_not_digit])]
          simp
        have hdwX : (grest.takeWhile Char.isDigit ++
            (grest.dropWhile Char.isDigit ++ t)).dropWhile Char.isDigit
            = grest.dropWhile Char.isDigit ++ t := by
          rw [List.dropWhile_append_of_pos (mem_takeWhile_digits grest)]
          conv_rhs => rw [hD]
          rw [hD, List.cons_append, List.dropWhile_cons_of_neg (by simp [dot_not_digit])]
        rw [htwX, hdwX]
        have hlenD : (grest.dropWhile Char.isDigit ++ t).length ≤ n := by
          have h0 := congrArg List.length ht
          have h1 := congrArg List.length hsplit
          have h2 : (grest.takeWhile Char.isDigit).length = b2.length + 1 := by
            rw [hb]
            rfl
          simp only [List.length_append, List.length_cons] at h0 h1 ⊢
          omega
        have hih := ih (grest.dropWhile Char.isDigit ++ t) (grest.dropWhile Char.isDigit)
          hlenD hgrec ⟨t, rfl⟩
        have hlg := congrArg List.length hsplit
        simp only [List.length_cons, List.length_append] at hlg ⊢
        omega

/-- Maximality of the greedy group matcher. -/
theorem matchGroups_max (l g : List Char) (hg : isGroupsB g = true)
    (hex : ∃ t, g ++ t = l) : g.length ≤ (matchGroups l).1.length :=
  matchGroups_max_aux l.length l g (Nat.le_refl _) hg hex

/-- Soundness of the anchored match: a successful match is a prefix of the
input and a word of the version pattern. -/
theorem matchAt_sound (l m : List Char) (h : matchAt l = some m) :
    (∃ t, m ++ t = l) ∧ isVerB m = true := by
  rw [matchAt] at h
  by_cases h1 : (l.takeWhile Char.isDigit).isEmpty = true
  · rw [if_pos h1] at h
    simp at h
  · rw [if_neg h1] at h
    cases hdw : l.dropWhile Char.isDigit with
    | nil =>
      rw [hdw] at h
      simp at h
    | cons c r2 =>
      rw [hdw] at h
      simp only [] at h
      by_cases hc : c = '.'
      · rw [if_pos hc] at h
        by_cases h2 : (r2.takeWhile Char.isDigit).isEmpty = true
        · rw [if_pos h2] at h
          simp at h
        · rw [if_neg h2] at h
          injection h with hm
          subst hc
          obtain ⟨hg1, hg2⟩ := matchGroups_spec (r2.dropWhile Char.isDigit)
          constructor
          · refine ⟨(matchGroups (r2.dropWhile Char.isDigit)).2, ?_⟩
            rw [← hm]
            rw [List.append_assoc, List.cons_append, List.append_assoc, hg1,
              List.takeWhile_append_dropWhile, ← hdw, List.takeWhile_append_dropWhile]
          · rw [← hm, isVerB]
            have hd1 : ∀ a ∈ l.takeWhile Char.isDigit, Char.isDigit a :=
              mem_takeWhile_digits l
            have htwm : ((l.takeWhile Char.isDigit ++
                ('.' :: (r2.takeWhile Char.isDigit ++
                  (matchGroups (r2.dropWhile Char.isDigit)).1)))).takeWhile Char.isDigit
                = l.takeWhile Char.isDigit := by
              rw [List.takeWhile_append_of_pos hd1,
                List.takeWhile_cons_of_neg (by simp [dot_not_digit])]
              simp
            have hdwm : ((l.takeWhile Char.isDigit ++
                ('.' :: (r2.takeWhile Char.isDigit ++
                  (matchGroups (r2.dropWhile Char.isDigit)).1)))).dropWhile Char.isDigit
                = '.' :: (r2.takeWhile Char.isDigit ++
                  (matchGroups (r2.dropWhile Char.isDigit)).1) := by
              rw [List.dropWhile_append_of_pos hd1,
                List.dropWhile_cons_of_neg (by simp [dot_not_digit])]
            rw [htwm, hdwm, isGroupsB_cons]
            obtain ⟨htwrest, hdwrest⟩ := span_digits_groups (r2.takeWhile Char.isDigit)
              (matchGroups (r2.dropWhile Char.isDigit)).1 (mem_takeWhile_digits r2) hg2
            rw [htwrest, hdwrest]
            have h1' : (l.takeWhile Char.isDigit).isEmpty = false := by simpa using h1
            have h2' : (r2.takeWhile Char.isDigit).isEmpty = false := by simpa using h2
            simp [h1', h2', hg2]
      · rw [if_neg hc] at h
        simp at h

/-- Completeness and maximality of the anchored match: if a word of the
version pattern prefixes the input, the anchored match succeeds and its match
is at least as long. -/
theorem matchAt_complete (l m : List Char) (hver : isVerB m = true)
    (hex : ∃ t, m ++ t = l) :
    ∃ m0, matchAt l = some m0 ∧ m.length ≤ m0.length := by
  obtain ⟨t, ht⟩ := hex
  rw [isVerB] at hver
  simp only [Bool.and_eq_true, Bool.not_eq_true'] at hver
  obtain ⟨⟨hane, hrne⟩, hgm⟩ := hver
  have hAne : m.takeWhile Char.isDigit ≠ [] := by
    simpa [List.isEmpty_iff] using hane
  have hRne : m.dropWhile Char.isDigit ≠ [] := by
    simpa [List.isEmpty_iff] using hrne
  have hmsplit : m.takeWhile Char.isDigit ++ m.dropWhile Char.isDigit = m :=
    List.takeWhile_append_dropWhile _ _
  obtain ⟨cr, rr, hR⟩ := List.exists_cons_of_ne_nil hRne
  have hcr : cr = '.' := by
    apply isGroupsB_head cr rr
    rw [← hR]
    exact hgm
  subst hcr
  rw [hR] at hgm
  rw [isGroupsB_cons] at hgm
  simp only [Bool.and_eq_true, Bool.not_eq_true'] at hgm
  obtain ⟨⟨-, hBne'⟩, hDg⟩ := hgm
  have hBne : rr.takeWhile Char.isDigit ≠ [] := by
    simpa [List.isEmpty_iff] using hBne'
  have hrrsplit : rr.takeWhile Char.isDigit ++ rr.dropWhile Char.isDigit = rr :=
    List.takeWhile_append_dropWhile _ _
  have hAdig : ∀ a ∈ m.takeWhile Char.isDigit, Char.isDigit a := mem_takeWhile_digits m
  have hBdig : ∀ a ∈ rr.takeWhile Char.isDigit, Char.isDigit a := mem_takeWhile_digits rr
  -- the input decomposes as A ++ '.' :: (rr ++ t)
  have hlform : m.takeWhile Char.isDigit ++ ('.' :: (rr ++ t)) = l := by
    rw [← ht]
    conv_rhs => rw [← hmsplit]
    rw [hR]
    simp
  -- the spans of the input
  have htwl : l.takeWhile Char.isDigit = m.takeWhile Char.isDigit := by
    rw [← hlform, List.takeWhile_append_of_pos hAdig,
      List.takeWhile_cons_of_neg (by simp [dot_not_digit])]
    simp
  have hdwl : l.dropWhile Char.isDigit = '.' :: (rr ++ t) := by
    rw [← hlform, List.dropWhile_append_of_pos hAdig,
      List.dropWhile_cons_of_neg (by simp [dot_not_digit])]
  -- the match fires
  rw [matchAt, if_neg (by simpa [htwl, List.isEmpty_iff] using hAne), hdwl]
  simp only []
  rw [if_pos trivial]
  have hBle : (rr.takeWhile Char.isDigit).length ≤ ((rr ++ t).takeWhile Char.isDigit).length := by
    have := length_takeWhile_ge (rr.takeWhile Char.isDigit) (rr.dropWhile Char.isDigit ++ t) hBdig
    calc (rr.takeWhile Char.isDigit).length
        ≤ ((rr.takeWhile Char.isDigit ++ (rr.dropWhile Char.isDigit ++ t)).takeWhile
            Char.isDigit).length := this
      _ = ((rr ++ t).takeWhile Char.isDigit).length := by
            rw [← List.append_assoc, hrrsplit]
  have h2 : ((rr ++ t).takeWhile Char.isDigit).isEmpty ≠ true := by
    obtain ⟨cb, bb, hB⟩ := List.exists_cons_of_ne_nil hBne
    intro hcontra
    rw [List.isEmpty_iff] at hcontra
    rw [hB] at hBle
    rw [hcontra] at hBle
    simp at hBle
  rw [if_neg h2]
  refine ⟨_, rfl, ?_⟩
  -- length accounting
  have hmlen : m.length = (m.takeWhile Char.isDigit).length + 1 + rr.length := by
    conv_lhs => rw [← hmsplit]
    rw [hR]
    simp only [List.length_append, List.length_cons]
    omega
  rw [htwl]
  simp only [List.length_append, List.length_cons]
  -- split on the shape of the groups part of rr
  rcases isGroupsB_shape _ hDg with hD | ⟨dwg', hD⟩
  · -- rr is a pure digit run
    have hrrB : rr = rr.takeWhile Char.isDigit := by
      conv_lhs => rw [← hrrsplit]
      rw [hD]
      simp
    have htwge : (rr.takeWhile Char.isDigit).length
        ≤ ((rr ++ t).takeWhile Char.isDigit).length := hBle
    have hrrlen := congrArg List.length hrrB
    omega
  · -- rr = B ++ '.' :: dwg'
    have htwX : (rr ++ t).takeWhile Char.isDigit = rr.takeWhile Char.isDigit := by
      conv_lhs => rw [← hrrsplit]
      rw [hD, List.append_assoc, List.takeWhile_append_of_pos hBdig,
        List.cons_append, List.takeWhile_cons_of_neg (by simp [dot_not_digit])]
      simp
    have hdwX : (rr ++ t).dropWhile Char.isDigit = rr.dropWhile Char.isDigit ++ t := by
      conv_lhs => rw [← hrrsplit]
      rw [hD, List.append_assoc, List.dropWhile_append_of_pos hBdig,
        List.cons_append, List.dropWhile_cons_of_neg (by simp [dot_not_digit])]
    have hmax := matchGroups_max ((rr ++ t).dropWhile Char.isDigit)
      (rr.dropWhile Char.isDigit) hDg ⟨t, by rw [hdwX]⟩
    have hrrlen := congrArg List.length hrrsplit
    simp only [List.length_append] at hrrlen
    rw [htwX]
    omega

/-- A successful `re.search` scan fires at the first start position where the
anchored match succeeds. -/
theorem searchVersion_some : ∀ (l m : List Char), searchVersion l = some m →
    ∃ i, matchAt (l.drop i) = some m ∧ ∀ j < i, matchAt (l.drop j) = none := by
  intro l
  induction l with
  | nil =>
    intro m h
    simp [searchVersion] at h
  | cons c rest ih =>
    intro m h
    rw [searchVersion] at h
    cases hma : matchAt (c :: rest) with
    | some m' =>
      rw [hma] at h
      simp only [] at h
      injection h with h'
      subst h'
      refine ⟨0, ?_, ?_⟩
      · simpa using hma
      · intro j hj
        exact absurd hj (Nat.not_lt_zero j)
    | none =>
      rw [hma] at h
      simp only [] at h
      obtain ⟨i, h1, h2⟩ := ih m h
      refine ⟨i + 1, ?_, ?_⟩
      · simpa [List.drop_succ_cons] using h1
      · intro j hj
        cases j with
        | zero => simpa using hma
        | succ j' =>
          rw [List.drop_succ_cons]
          exact h2 j' (by omega)

/-- A failed `re.search` scan means the anchored match fails at every start
position. -/
theorem searchVersion_none : ∀ l : List Char, searchVersion l = none →
    ∀ i, matchAt (l.drop i) = none := by
  intro l
  induction l with
  | nil =>
    intro _ i
    rw [List.drop_nil]
    rfl
  | cons c rest ih =>
    intro h i
    rw [searchVersion] at h
    cases hma : matchAt (c :: rest) with
    | some m' =>
      rw [hma] at h
      simp at h
    | none =>
      rw [hma] at h
      simp only [] at h
      cases i with
      | zero => simpa using hma
      | succ i' =>
        rw [List.drop_succ_cons]
        exact ih h i'

/-- Claim C6: `parse_version_from_filename` never fails: whenever it returns
anything other than the filename itself, the filename contains a dotted
numeric substring; and whenever the filename contains a dotted numeric
substring (one or more digits, a dot, one or more digits, optionally followed
by further dot-digit groups), the result is exactly the first such substring —
it is itself a dotted numeric substring of the name, it occurs at the
leftmost position carrying any such substring, and it is the longest one
occurring at that position. -/
theorem claim_C6 (name : String) :
    (parse_version_from_filename name ≠ name →
      ∃ i m, occursVer name.toList i m) ∧
    (∀ i m, occursVer name.toList i m →
      ∃ i0, occursVer name.toList i0 (parse_version_from_filename name).toList ∧
        (∀ j m', occursVer name.toList j m' → i0 ≤ j) ∧
        (∀ m', occursVer name.toList i0 m' →
          m'.length ≤ (parse_version_from_filename name).toList.length)) := by
  constructor
  · intro hne
    cases hs : searchVersion name.toList with
    | none =>
      exact absurd
        (by simp [parse_version_from_filename, show searchVersion name.data = none from hs])
        hne
    | some m0 =>
      obtain ⟨i, h1, -⟩ := searchVersion_some name.toList m0 hs
      obtain ⟨⟨t, ht⟩, hver⟩ := matchAt_sound _ _ h1
      exact ⟨i, m0, hver, t, ht⟩
  · intro i m hocc
    obtain ⟨hver, t, ht⟩ := hocc
    cases hs : searchVersion name.toList with
    | none =>
      exfalso
      have hnone := searchVersion_none name.toList hs i
      obtain ⟨m0, hm0, -⟩ := matchAt_complete (name.toList.drop i) m hver ⟨t, ht⟩
      rw [hnone] at hm0
      simp at hm0
    | some m0 =>
      have hplist : (parse_version_from_filename name).toList = m0 := by
        simp [parse_version_from_filename, show searchVersion name.data = some m0 from hs]
      obtain ⟨i0, hm0at, hmin⟩ := searchVersion_some name.toList m0 hs
      obtain ⟨⟨t0, ht0⟩, hver0⟩ := matchAt_sound _ _ hm0at
      rw [hplist]
      refine ⟨i0, ⟨hver0, t0, ht0⟩, ?_, ?_⟩
      · intro j m' hocc'
        obtain ⟨hver', t', ht'⟩ := hocc'
        by_contra hj
        push_neg at hj
        have hnone := hmin j hj
        obtain ⟨m1, hm1, -⟩ := matchAt_complete (name.toList.drop j) m' hver' ⟨t', ht'⟩
        rw [hnone] at hm1
        simp at hm1
      · intro m' hocc'
        obtain ⟨hver', t', ht'⟩ := hocc'
        obtain ⟨m1, hm1, hle⟩ := matchAt_complete (name.toList.drop i0) m' hver' ⟨t', ht'⟩
        rw [hm0at] at hm1
        injection hm1 with hm1'
        rw [hm1']
        exact hle

/-- Concrete instance of `claim_C6` on `App-1.2.exe`: the result differs from
the filename (so an occurrence exists), and instantiating the second part at
the occurrence of `1.2` (position 4) yields the leftmost-longest
characterization of the returned version. -/
theorem claim_C6_wit :
    (∃ i m, occursVer "App-1.2.exe".toList i m) ∧
    (∃ i0, occursVer "App-1.2.exe".toList i0
        (parse_version_from_filename "App-1.2.exe").toList ∧
      (∀ j m', occursVer "App-1.2.exe".toList j m' → i0 ≤ j) ∧
      (∀ m', occursVer "App-1.2.exe".toList i0 m' →
        m'.length ≤ (parse_version_from_filename "App-1.2.exe").toList.length)) :=
  ⟨(claim_C6 "App-1.2.exe").1 (by decide),
   (claim_C6 "App-1.2.exe").2 4 "1.2".toList ⟨by decide, ".exe".toList, by decide⟩⟩

end CreateUpdater
